import Mathlib

/-!
Verification of the ai-context-mcp core against its specification.

The development shallowly embeds the TypeScript sources:
  * `src/metadata-extractor.ts` (pure metadata extraction),
  * `src/scanner.ts` (directory walks producing metadata maps),
  * `src/security.ts` (SecurityValidator: path validation and safe reads),
  * `src/loader.ts` (Loader: map lookup plus safe re-read).

Text is modelled as `List Char`; machine strings from the source appear via
`str`.  The filesystem is modelled twice, in the shapes the two subsystems
consume: a directory tree (`Dir`) for the scanner walk (readdir with file
types), and a flat path-to-node map (`FS`) for the SecurityValidator
primitives (existsSync, statSync, realpathSync, readFileSync).  `flatten`
connects the two.  Node primitives are modelled only as far as the code
under verification exercises them; each model definition carries a comment
stating its scope.
-/

set_option maxRecDepth 4000

deriving instance DecidableEq for Except

abbrev Str := List Char

def str (s : String) : Str := s.data

/-- Characters treated as whitespace by the JS `\s` class and `String.trim`
(ASCII subset; the Unicode space characters never occur in the inputs the
repository handles and are not modelled). -/
def isWS (c : Char) : Bool :=
  c = ' ' || c = '\t' || c = '\n' || c = '\r' || c = '\x0b' || c = '\x0c'

/-- Model of JavaScript `String.prototype.trim`. -/
def jsTrim (s : Str) : Str :=
  ((s.dropWhile isWS).reverse.dropWhile isWS).reverse

/-- Index of the first occurrence of `pat` in `s` (JS `String.indexOf` /
leftmost regex match position), `none` when absent. -/
def findSubstrIdx (pat : Str) : Str → Option Nat
  | [] => if pat = [] then some 0 else none
  | s@(_ :: t) =>
    if pat.isPrefixOf s then some 0 else (findSubstrIdx pat t).map (· + 1)

/-- Index of the last occurrence of character `c` (JS `lastIndexOf` on a
single character), `none` when absent. -/
def lastIdxOf (c : Char) : Str → Option Nat
  | [] => none
  | x :: t =>
    match lastIdxOf c t with
    | some j => some (j + 1)
    | none => if x = c then some 0 else none

def dropTrailingWS (s : Str) : Str :=
  (s.reverse.dropWhile isWS).reverse

/-- Model of the anchored JS regex match
`content.match` against `^---\n([\s\S]*?)\n---` from `metadata-extractor.ts`:
the text must begin with the delimiter line, and the lazy group captures
up to the first later occurrence of the closing delimiter. -/
def yamlMatch (s : Str) : Option Str :=
  if (str "---\n").isPrefixOf s then
    let t := s.drop 4
    (findSubstrIdx (str "\n---") t).map fun i => t.take i
  else none

/-- Attempt of the regex `<!--\s*metadata\s*\n([\s\S]*?)\s*-->` anchored at
the start of `s`.  Backtracking semantics of the JS engine:
`\s*` before `metadata` consumes the maximal whitespace run (shorter runs
leave a whitespace character where `m` is required); `\s*\n` consumes up to
and including the last newline of the maximal whitespace run; the lazy
group ends at the earliest position from which `\s*-->` matches, which is
the first occurrence of `-->` with the whitespace run immediately before it
absorbed by `\s*`. -/
def htmlTryAt (s : Str) : Option Str :=
  if (str "<!--").isPrefixOf s then
    let t1 := s.drop 4
    let t2 := t1.dropWhile isWS
    if (str "metadata").isPrefixOf t2 then
      let t3 := t2.drop 8
      let run := t3.takeWhile isWS
      match lastIdxOf '\n' run with
      | none => none
      | some j =>
        let g := t3.drop (j + 1)
        (findSubstrIdx (str "-->") g).map fun p => dropTrailingWS (g.take p)
    else none
  else none

/-- Model of the unanchored JS regex match against
`<!--\s*metadata\s*\n([\s\S]*?)\s*-->`: leftmost position
at which `htmlTryAt` succeeds. -/
def htmlMatch : Str → Option Str
  | [] => none
  | s@(_ :: t) =>
    match htmlTryAt s with
    | some r => some r
    | none => htmlMatch t

/-- Model of `content.replace(/^#[^\n]*\n+/, '')`: when the text starts
with `#`, remove the first line together with the maximal following run of
newlines; the regex requires at least one newline, so a heading with no
newline after it is left in place. -/
def stripHeader (s : Str) : Str :=
  match s with
  | '#' :: _ =>
    let u := s.dropWhile (fun c => c ≠ '\n')
    if u.isEmpty then s else u.dropWhile (fun c => c = '\n')
  | _ => s

/-- Model of `withoutHeader.split(/\nRead:/)[0]`: the text before the
first occurrence of `"\nRead:"`. -/
def beforeReadDirective (s : Str) : Str :=
  match findSubstrIdx (str "\nRead:") s with
  | some i => s.take i
  | none => s

/-- Fallback extraction of `metadata-extractor.ts` lines 25-50: strip a
leading heading, truncate at the first `Read:` directive, take the first
paragraph, else cap at 500 characters trimming back to the last sentence
end or line break when the cut point exceeds 200; finally trim. -/
def derivedParagraph (s : Str) : Str :=
  let withoutHeader := stripHeader s
  let beforeReads := beforeReadDirective withoutHeader
  let fp :=
    match findSubstrIdx (str "\n\n") beforeReads with
    | some i => beforeReads.take i
    | none =>
      let fp0 := beforeReads.take 500
      let lastPeriod : Int := ((lastIdxOf '.' fp0).map Int.ofNat).getD (-1)
      let lastNewline : Int := ((lastIdxOf '\n' fp0).map Int.ofNat).getD (-1)
      let cutPoint := max lastPeriod lastNewline
      if cutPoint > 200 then fp0.take (cutPoint.toNat + 1) else fp0
  jsTrim fp

/-- The `source` tags of `metadata-extractor.ts`: `yaml` is the structured
frontmatter tag, `html` the inline-comment tag, `paragraph` the derived
fallback tag. -/
inductive MetaSource where
  | yaml
  | html
  | paragraph
deriving DecidableEq, Repr

structure ExtractedMetadata where
  content : Str
  source : MetaSource
deriving DecidableEq, Repr

def noDescriptionAvailable : Str := str "No description available"

/-- Model of `extractMetadata` from `metadata-extractor.ts`. -/
def extractMetadata (content : Str) : ExtractedMetadata :=
  match yamlMatch content with
  | some inner => { content := jsTrim inner, source := .yaml }
  | none =>
    match htmlMatch content with
    | some inner => { content := jsTrim inner, source := .html }
    | none =>
      let fp := derivedParagraph content
      { content := if fp.isEmpty then noDescriptionAvailable else fp,
        source := .paragraph }

/-! Directory trees and metadata maps -/

/-- A directory listing as `fs.readdir(dir, \x7b withFileTypes: true \x7d)`
presents it: an ordered sequence of named entries, each a regular file
(with its content) or a subdirectory.  Other node kinds (sockets, devices,
symlinks inside the scanned tree) are not modelled; the scanner skips
them. -/
inductive Dir where
  | nil : Dir
  | consFile (name : Str) (content : Str) (rest : Dir) : Dir
  | consDir (name : Str) (sub : Dir) (rest : Dir) : Dir
deriving DecidableEq, Repr

/-- Model of `path.join(dir, name)` for the calls the scanner makes: `dir`
does not end in a slash and `name` is a single readdir entry name, so no
normalization applies beyond inserting the separator. -/
def pathJoin (a b : Str) : Str := a ++ '/' :: b

/-- Model of `path.relative(base, full)` for the shapes produced by the
walk, where `full` extends `base` by one or more joined components. -/
def pathRelative (base full : Str) : Str :=
  if (base ++ ['/']).isPrefixOf full then full.drop (base.length + 1) else full

def lowerStr (s : Str) : Str := s.map Char.toLower

/-- Test `entry.name.toLowerCase().endsWith('.md')` (with
`FileExtensions.MARKDOWN = ".md"`). -/
def endsWithMd (n : Str) : Bool := (str ".md").isSuffixOf (lowerStr n)

/-- Model of `name.replace(new RegExp('\x5c\x5c.md$', 'i'), '')`: drop a
case-insensitive `.md` suffix. -/
def stripMdSuffix (n : Str) : Str :=
  if endsWithMd n then n.take (n.length - 3) else n

/-- Model of `relativePath.replace(/\x5c\x5c/g, '/')` (backslashes to
forward slashes). -/
def replaceBackslashes (s : Str) : Str :=
  s.map fun c => if c = '\\' then '/' else c

/-- Model of JS `key.split('/')`: never empty, empty string splits to one
empty segment. -/
def splitOnChar (c : Char) : Str → List Str
  | [] => [[]]
  | x :: xs =>
    match splitOnChar c xs with
    | [] => [[]]
    | h :: t => if x = c then [] :: h :: t else (x :: h) :: t

structure AgentMetadata where
  name : Str
  path : Str
  description : Str
  metadataSource : MetaSource
deriving DecidableEq, Repr

structure GuidelineMetadata where
  name : Str
  path : Str
  category : Str
  description : Str
  metadataSource : MetaSource
deriving DecidableEq, Repr

structure FrameworkMetadata where
  name : Str
  path : Str
  description : Str
  metadataSource : MetaSource
deriving DecidableEq, Repr

/-- Model of `Map.prototype.set`: overwrite in place when the key exists,
else append, preserving insertion order. -/
def mapSet {α : Type} (m : List (Str × α)) (k : Str) (v : α) : List (Str × α) :=
  match m with
  | [] => [(k, v)]
  | (k', v') :: rest => if k' = k then (k, v) :: rest else (k', v') :: mapSet rest k v

/-- Model of `Map.prototype.get`. -/
def mapLookup {α : Type} (m : List (Str × α)) (k : Str) : Option α :=
  match m with
  | [] => none
  | (k', v) :: rest => if k' = k then some v else mapLookup rest k

/-- Model of `Array.from(map.keys())` (insertion order). -/
def mapKeys {α : Type} (m : List (Str × α)) : List Str := m.map Prod.fst

/-- The recursive walk inside `Scanner.scanAgentsWithMetadata`
(`scanner.ts` lines 20-55): recurse into subdirectories, and for each
file whose lowercased name ends in `.md`, key the metadata map by the
filename without extension. -/
def scanAgentsDir : Str → Dir → List (Str × AgentMetadata) → List (Str × AgentMetadata)
  | _, .nil, acc => acc
  | fp, .consDir n sub rest, acc =>
    scanAgentsDir fp rest (scanAgentsDir (pathJoin fp n) sub acc)
  | fp, .consFile n c rest, acc =>
    scanAgentsDir fp rest
      (if endsWithMd n then
        let agentName := stripMdSuffix n
        let em := extractMetadata c
        mapSet acc agentName
          { name := agentName, path := pathJoin fp n,
            description := em.content, metadataSource := em.source }
      else acc)

/-- First readdir-able entry of the given name: `some` subtree when it is
a directory, `none` when missing or a regular file (in both of which cases
the scanner's `readdir` attempt fails and is silently caught, yielding an
empty map). -/
def findSubDir : Dir → Str → Option Dir
  | .nil, _ => none
  | .consFile n _ rest, name => if n = name then none else findSubDir rest name
  | .consDir n sub rest, name => if n = name then some sub else findSubDir rest name

/-- Model of `Scanner.scanAgentsWithMetadata` applied to the directory
tree rooted at `rootPath` (`DirectoryNames.AGENTS = "agents"`). -/
def scanAgentsWithMetadata (rootPath : Str) (root : Dir) : List (Str × AgentMetadata) :=
  match findSubDir root (str "agents") with
  | some d => scanAgentsDir (pathJoin rootPath (str "agents")) d []
  | none => []

/-- Key derivation of `scanGuidelinesWithMetadata` (`scanner.ts` line 76):
relative path, backslashes replaced, `.md` suffix stripped
case-insensitively. -/
def guidelineKey (basePath fullPath : Str) : Str :=
  stripMdSuffix (replaceBackslashes (pathRelative basePath fullPath))

/-- Category derivation (`scanner.ts` lines 88-89): first segment of
`key.split('/')` when there is nesting, else `general`. -/
def categoryOfKey (key : Str) : Str :=
  match splitOnChar '/' key with
  | p :: _ :: _ => p
  | _ => str "general"

/-- The recursive walk inside `Scanner.scanGuidelinesWithMetadata`
(`scanner.ts` lines 65-105), keyed by the slash-joined path relative to
`basePath`. -/
def scanGuidelinesDir (basePath : Str) : Str → Dir → List (Str × GuidelineMetadata) → List (Str × GuidelineMetadata)
  | _, .nil, acc => acc
  | fp, .consDir n sub rest, acc =>
    scanGuidelinesDir basePath fp rest (scanGuidelinesDir basePath (pathJoin fp n) sub acc)
  | fp, .consFile n c rest, acc =>
    scanGuidelinesDir basePath fp rest
      (if endsWithMd n then
        let key := guidelineKey basePath (pathJoin fp n)
        let em := extractMetadata c
        mapSet acc key
          { name := key, path := pathJoin fp n, category := categoryOfKey key,
            description := em.content, metadataSource := em.source }
      else acc)

/-- Model of `Scanner.scanGuidelinesWithMetadata`
(`DirectoryNames.GUIDELINES = "guidelines"`). -/
def scanGuidelinesWithMetadata (rootPath : Str) (root : Dir) : List (Str × GuidelineMetadata) :=
  match findSubDir root (str "guidelines") with
  | some d =>
    let gdir := pathJoin rootPath (str "guidelines")
    scanGuidelinesDir gdir gdir d []
  | none => []

/-! Security validator -/

/-- A filesystem node as the SecurityValidator primitives observe it. -/
inductive FNode where
  | file (content : Str)
  | dir
  | symlink (target : Str)
deriving DecidableEq, Repr

/-- Flat filesystem: absolute path to node.  Symbolic links are modelled
as final path components whose targets are already canonical absolute
paths; link chains and links in intermediate components are outside the
model. -/
abbrev FS := List (Str × FNode)

def fsLookup (fs : FS) (p : Str) : Option FNode := mapLookup fs p

/-- Hexadecimal digit class `[0-9a-fA-F]`. -/
def isHexDigit (c : Char) : Bool :=
  ('0' ≤ c && c ≤ '9') || ('a' ≤ c && c ≤ 'f') || ('A' ≤ c && c ≤ 'F')

/-- Line terminators that the JS regex `.` does not match. -/
def isLineTerm (c : Char) : Bool :=
  c = '\n' || c = '\r' || c.val = 0x2028 || c.val = 0x2029

/-- Whether `close` occurs before any line terminator (the `.*` of the
expansion patterns cannot cross a line terminator). -/
def closedOnLine (close : Char) : Str → Bool
  | [] => false
  | c :: t =>
    if c = close then true
    else if isLineTerm c then false
    else closedOnLine close t

/-- Whether the literal `opn` occurs somewhere, followed on the same line
by `close`: the `\$\x7b.*\x7d` and `\$\(.*\)` tests of
`containsDangerousPatterns`. -/
def hasExpansionPattern (opn : Str) (close : Char) : Str → Bool
  | [] => false
  | s@(_ :: t) =>
    (opn.isPrefixOf s && closedOnLine close (s.drop opn.length))
      || hasExpansionPattern opn close t

/-- Test of `%[0-9a-fA-F]\x7b2\x7d`: a percent sign followed by two hex
digits. -/
def hasPercentHex : Str → Bool
  | '%' :: a :: b :: t => (isHexDigit a && isHexDigit b) || hasPercentHex (a :: b :: t)
  | _ :: t => hasPercentHex t
  | [] => false

/-- Test of `\x5cx[0-9a-fA-F]\x7b2\x7d`: a literal backslash-x escape with
two hex digits. -/
def hasBackslashHex : Str → Bool
  | '\\' :: 'x' :: a :: b :: t => (isHexDigit a && isHexDigit b) || hasBackslashHex ('x' :: a :: b :: t)
  | _ :: t => hasBackslashHex t
  | [] => false

/-- Boolean substring test (the `\.\.` regex test and the infix facts the
theorems state). -/
def hasSubstr (pat s : Str) : Bool := (findSubstrIdx pat s).isSome

/-- Model of `SecurityValidator.containsDangerousPatterns` (`security.ts`):
the denylist of lexical patterns, tested on the raw string. -/
def containsDangerousPatterns (filePath : Str) : Bool :=
  hasSubstr (str "..") filePath
    || (match filePath with | '~' :: _ => true | _ => false)
    || hasExpansionPattern (str "$\x7b") '\x7d' filePath
    || hasExpansionPattern (str "$(") ')' filePath
    || hasPercentHex filePath
    || hasBackslashHex filePath
    || filePath.contains '\x00'

/-! POSIX path resolution -/

def isAbsolutePath (p : Str) : Bool :=
  match p with
  | '/' :: _ => true
  | _ => false

/-- Segment normalization of POSIX path resolution for absolute paths:
empty and dot segments vanish, dot-dot pops (and cannot climb above the
filesystem root). -/
def normStep (acc : List Str) (s : Str) : List Str :=
  if s = [] then acc
  else if s = str "." then acc
  else if s = str ".." then acc.dropLast
  else acc ++ [s]

def normSegs (segs : List Str) : List Str := segs.foldl normStep []

/-- Normalization of an absolute POSIX path, as performed by
`path.resolve` and by `path.normalize` on resolve output (which never
carries a trailing slash). -/
def normalizeAbs (p : Str) : Str :=
  '/' :: List.intercalate (str "/") (normSegs (splitOnChar '/' p))

/-- Model of `path.resolve(root, req)` for an absolute `root`: an absolute
`req` stands alone, otherwise it is joined under `root`; the combination
is normalized. -/
def pathResolve (root req : Str) : Str :=
  normalizeAbs (if isAbsolutePath req then req else root ++ '/' :: req)

/-- Model of `path.normalize` on the (absolute, already
trailing-slash-free) output of `path.resolve`. -/
def pathNormalize (p : Str) : Str := normalizeAbs p

/-- The distinct failure kinds of the SecurityValidator.  Messages are
modelled by kind; the path sanitization inside the message text carries no
behavior and is not modelled. -/
inductive SecError where
  | dangerousPatterns
  | outsideBoundary
  | symlinkOutsideBoundary
  | cannotReadFile
  | ioError
deriving DecidableEq, Repr

/-- Model of `fs.realpathSync` over `FS`: identity on existing files and
directories, one-step target resolution on symbolic links, an exception
(`Except.error`) on missing paths and dangling links. -/
def realpathSync (fs : FS) (p : Str) : Except Unit Str :=
  match fsLookup fs p with
  | some (.file _) => .ok p
  | some .dir => .ok p
  | some (.symlink t) =>
    match fsLookup fs t with
    | some (.file _) => .ok t
    | some .dir => .ok t
    | _ => .error ()
  | none => .error ()

/-- Model of `SecurityValidator.validatePath` (`security.ts` lines
705-732 of the combined listing).  Stage one: lexical denylist on the raw
request.  Stage two: resolve against the root, normalize, and require the
normalized root as a string prefix.  Stage three mirrors the source
faithfully, including its flaw: the body of the `try` throws the
symlink-violation error when the real path leaves the root, but that throw
is caught by the surrounding `catch (error)` of the same statement, which
returns the normalized path; the `catch` therefore also swallows the
boundary error, not only the missing-file error it was written for. -/
def validatePath (fs : FS) (root req : Str) : Except SecError Str :=
  if containsDangerousPatterns req then .error .dangerousPatterns
  else
    let normalized := pathNormalize (pathResolve root req)
    if root.isPrefixOf normalized then
      match realpathSync fs normalized with
      | .ok realPath =>
        if root.isPrefixOf realPath then .ok realPath
        else .ok normalized
      | .error _ => .ok normalized
    else .error .outsideBoundary

/-- Model of `fs.existsSync` plus `fs.statSync(..).isFile()` as
`isFileReadable` uses them: `some true` for a regular file (following one
symlink step), `some false` for a directory, `none` when the path is
missing or the link dangles. -/
def statIsFile (fs : FS) (p : Str) : Option Bool :=
  match fsLookup fs p with
  | some (.file _) => some true
  | some .dir => some false
  | some (.symlink t) =>
    match fsLookup fs t with
    | some (.file _) => some true
    | some .dir => some false
    | _ => none
  | none => none

/-- Model of `SecurityValidator.isFileReadable`: validation, existence and
regular-file checks, all failures collapsing to `false`.  The
`fs.accessSync(.., R_OK)` permission probe is modelled as granted. -/
def isFileReadable (fs : FS) (root p : Str) : Bool :=
  match validatePath fs root p with
  | .error _ => false
  | .ok validated =>
    match statIsFile fs validated with
    | some true => true
    | _ => false

/-- Model of `fs.readFileSync` over `FS`. -/
def readFileSync (fs : FS) (p : Str) : Except SecError Str :=
  match fsLookup fs p with
  | some (.file c) => .ok c
  | some (.symlink t) =>
    match fsLookup fs t with
    | some (.file c) => .ok c
    | _ => .error .ioError
  | _ => .error .ioError

/-- Model of `SecurityValidator.safeReadFile`: validate, re-check
readability of the validated path, then read. -/
def safeReadFile (fs : FS) (root p : Str) : Except SecError Str :=
  match validatePath fs root p with
  | .error e => .error e
  | .ok validated =>
    if isFileReadable fs root validated then readFileSync fs validated
    else .error .cannotReadFile

/-! Loader -/

inductive LoadError where
  | notFound (msg : Str)
  | security (e : SecError)
deriving DecidableEq, Repr

def joinCommaSpace (l : List Str) : Str := List.intercalate (str ", ") l

/-- The root-stripping of `Loader.loadAgent` lines 22-24: when the stored
path extends the root, drop the root and the separator. -/
def relativizePath (root p : Str) : Str :=
  if root.isPrefixOf p then p.drop (root.length + 1) else p

/-- Model of `Loader.loadAgent` (`loader.ts` lines 12-27): lookup, a
not-found error enumerating the available keys, else a safe re-read of the
stored path relativized against the root. -/
def loadAgent (fs : FS) (root : Str) (agents : List (Str × AgentMetadata)) (agentName : Str) : Except LoadError Str :=
  match mapLookup agents agentName with
  | none =>
    .error (.notFound (str "Agent \x27" ++ agentName ++ str "\x27 not found. Available: "
      ++ joinCommaSpace (mapKeys agents)))
  | some metadata =>
    match safeReadFile fs root (relativizePath root metadata.path) with
    | .ok c => .ok c
    | .error e => .error (.security e)

/-- Model of `Loader.loadGuideline` (`loader.ts` lines 29-44). -/
def loadGuideline (fs : FS) (root : Str) (guidelines : List (Str × GuidelineMetadata)) (guidelinePath : Str) : Except LoadError Str :=
  match mapLookup guidelines guidelinePath with
  | none =>
    .error (.notFound (str "Guideline \x27" ++ guidelinePath ++ str "\x27 not found. Available: "
      ++ joinCommaSpace (mapKeys guidelines)))
  | some metadata =>
    match safeReadFile fs root (relativizePath root metadata.path) with
    | .ok c => .ok c
    | .error e => .error (.security e)

/-- Model of `Loader.loadFramework` (`loader.ts` lines 46-61). -/
def loadFramework (fs : FS) (root : Str) (frameworks : List (Str × FrameworkMetadata)) (frameworkName : Str) : Except LoadError Str :=
  match mapLookup frameworks frameworkName with
  | none =>
    .error (.notFound (str "Framework \x27" ++ frameworkName ++ str "\x27 not found. Available: "
      ++ joinCommaSpace (mapKeys frameworks)))
  | some metadata =>
    match safeReadFile fs root (relativizePath root metadata.path) with
    | .ok c => .ok c
    | .error e => .error (.security e)

/-- Flat view of a directory tree: the `FS` a tree mounted at `fp`
induces. -/
def flatten (fp : Str) : Dir → FS
  | .nil => []
  | .consFile n c rest => (pathJoin fp n, .file c) :: flatten fp rest
  | .consDir n sub rest =>
    (pathJoin fp n, .dir) :: (flatten (pathJoin fp n) sub ++ flatten fp rest)

/-- The full filesystem for a root directory holding `tree`. -/
def fsOfTree (root : Str) (tree : Dir) : FS :=
  (root, .dir) :: flatten root tree

/-! Helper lemmas -/

theorem mapLookup_eq_none_of_not_found {α : Type} (m : List (Str × α)) (k : Str) :
    mapLookup m k = none → ∀ v, (k, v) ∉ m := by
  induction m with
  | nil => intro _ v hv; cases hv
  | cons p rest ih =>
    intro h v hv
    obtain ⟨k', v'⟩ := p
    unfold mapLookup at h
    by_cases hk : k' = k
    · simp [hk] at h
    · simp only [hk, if_false] at h
      cases hv with
      | head => exact hk rfl
      | tail _ hmem => exact ih h v hmem

theorem intercalate_cons_of_ne_nil (sep a : Str) (l : List Str) (h : l ≠ []) :
    List.intercalate sep (a :: l) = a ++ sep ++ List.intercalate sep l := by
  cases l with
  | nil => exact absurd rfl h
  | cons b t => simp [List.intercalate, List.intersperse]

theorem mem_infix_intercalate (sep : Str) (l : List Str) (x : Str) (hx : x ∈ l) :
    x <:+: List.intercalate sep l := by
  induction l with
  | nil => cases hx
  | cons a t ih =>
    cases hx with
    | head =>
      cases t with
      | nil => simp [List.intercalate, List.intersperse]
      | cons b t' =>
        rw [intercalate_cons_of_ne_nil sep x (b :: t') (by simp)]
        exact ((List.prefix_append x sep).trans (List.prefix_append (x ++ sep) _)).isInfix
    | tail _ hmem =>
      have ht : t ≠ [] := by intro he; rw [he] at hmem; cases hmem
      rw [intercalate_cons_of_ne_nil sep a t ht]
      exact (ih hmem).trans (List.suffix_append (a ++ sep) _).isInfix

/-! Claim C3 -/

/-- C3: every path containing a denylisted lexical pattern (dot-dot,
leading tilde, expansion syntax, percent-encoded octet, backslash-hex
escape, or NUL byte) is rejected by `validatePath` with the
dangerous-pattern error before any resolution or filesystem access: the
result is the lexical error uniformly in the filesystem, so no filesystem
state is consulted. -/
theorem c3_dangerous_patterns_rejected_first (fs : FS) (root p : Str)
    (h : containsDangerousPatterns p = true) :
    validatePath fs root p = .error .dangerousPatterns := by
  unfold validatePath
  simp [h]

/-- Witness for C3 at the specification example `agents/../agents/x.md`,
whose logical resolution stays inside the root. -/
theorem c3_dangerous_patterns_rejected_first_witness :
    containsDangerousPatterns (str "agents/../agents/x.md") = true ∧
    validatePath [(str "/r", FNode.dir)] (str "/r") (str "agents/../agents/x.md")
      = .error .dangerousPatterns :=
  ⟨by decide, c3_dangerous_patterns_rejected_first _ _ _ (by decide)⟩

/-! Claim C1 -/

/-- The relation the claim asserts: the path is the root itself or lies
below it past a path separator. -/
def pathAtOrUnder (root p : Str) : Bool :=
  p == root || (root ++ ['/']).isPrefixOf p

/-- C1 counterexample: with root `/r`, the request `/rogue` passes the
lexical gate, resolves to `/rogue`, and survives the containment check
because that check is a raw string-prefix test; `validatePath` returns
`/rogue`, which is not at or under `/r`. -/
theorem c1_counterexample :
    validatePath [(str "/r", FNode.dir)] (str "/r") (str "/rogue") = .ok (str "/rogue") ∧
    pathAtOrUnder (str "/r") (str "/rogue") = false := by
  constructor
  · decide
  · decide

/-- C1 amended: every path returned by `validatePath` has the normalized
root as a string prefix (both return sites are guarded by the
`startsWith` test), but not necessarily as a path-segment boundary: a
sibling of the root whose name extends the root string is accepted, as
the counterexample shows. -/
theorem c1_validated_result_extends_root_string (fs : FS) (root req res : Str)
    (h : validatePath fs root req = .ok res) :
    root.isPrefixOf res = true := by
  unfold validatePath at h
  split at h
  · exact Except.noConfusion h
  · dsimp only at h
    split at h
    next hpre =>
      split at h
      · split at h
        next hreal => rw [Except.ok.injEq] at h; rw [← h]; exact hreal
        next => rw [Except.ok.injEq] at h; rw [← h]; exact hpre
      · rw [Except.ok.injEq] at h; rw [← h]; exact hpre
    next => exact Except.noConfusion h

/-- Witness for C1 amended at a concrete accepted request. -/
theorem c1_validated_result_extends_root_string_witness :
    validatePath [(str "/r", FNode.dir)] (str "/r") (str "agents/x.md")
      = .ok (str "/r/agents/x.md") ∧
    (str "/r").isPrefixOf (str "/r/agents/x.md") = true :=
  ⟨by decide,
   c1_validated_result_extends_root_string [(str "/r", FNode.dir)] (str "/r")
     (str "agents/x.md") (str "/r/agents/x.md") (by decide)⟩

/-! Claim C2 -/

def fsWithEscapingLink : FS :=
  [(str "/r", .dir),
   (str "/r/link", .symlink (str "/outside/secret")),
   (str "/outside/secret", .file (str "s"))]

/-- C2: the claim states that a request whose target is a symbolic link
with a real location outside the root still fails with the distinct
symlink-boundary error.  The code contradicts the claim, its own comment
and its own test suite: the throw sits inside the `try` whose `catch`
returns the normalized path, so `validatePath` returns `/r/link` normally
even though the real path `/outside/secret` fails the boundary test. -/
theorem c2_symlink_escape_error_swallowed :
    realpathSync fsWithEscapingLink (str "/r/link") = .ok (str "/outside/secret") ∧
    (str "/r").isPrefixOf (str "/outside/secret") = false ∧
    validatePath fsWithEscapingLink (str "/r") (str "link") = .ok (str "/r/link") := by
  refine ⟨by decide, by decide, by decide⟩

/-! Claim C8 -/

/-- C8: each loader, when the lookup key is absent from its map, fails
with a not-found error whose message contains every key currently present
in that map (the message ends with the comma-joined key enumeration). -/
theorem c8_not_found_error_lists_all_keys
    (fs : FS) (root : Str)
    (amap : List (Str × AgentMetadata)) (gmap : List (Str × GuidelineMetadata))
    (fmap : List (Str × FrameworkMetadata)) (an gn fn : Str) :
    (mapLookup amap an = none →
      ∃ msg, loadAgent fs root amap an = .error (.notFound msg) ∧
        ∀ k ∈ mapKeys amap, k <:+: msg) ∧
    (mapLookup gmap gn = none →
      ∃ msg, loadGuideline fs root gmap gn = .error (.notFound msg) ∧
        ∀ k ∈ mapKeys gmap, k <:+: msg) ∧
    (mapLookup fmap fn = none →
      ∃ msg, loadFramework fs root fmap fn = .error (.notFound msg) ∧
        ∀ k ∈ mapKeys fmap, k <:+: msg) := by
  refine ⟨fun h => ?_, fun h => ?_, fun h => ?_⟩
  · unfold loadAgent
    rw [h]
    refine ⟨_, rfl, fun k hk => ?_⟩
    simp only [joinCommaSpace]
    exact (mem_infix_intercalate _ _ k hk).trans (List.suffix_append _ _).isInfix
  · unfold loadGuideline
    rw [h]
    refine ⟨_, rfl, fun k hk => ?_⟩
    simp only [joinCommaSpace]
    exact (mem_infix_intercalate _ _ k hk).trans (List.suffix_append _ _).isInfix
  · unfold loadFramework
    rw [h]
    refine ⟨_, rfl, fun k hk => ?_⟩
    simp only [joinCommaSpace]
    exact (mem_infix_intercalate _ _ k hk).trans (List.suffix_append _ _).isInfix

def agentStub (nm p : String) : AgentMetadata :=
  { name := str nm, path := str p, description := str "d", metadataSource := .yaml }

def amapAB : List (Str × AgentMetadata) :=
  [(str "a", agentStub "a" "/r/agents/a.md"), (str "b", agentStub "b" "/r/agents/b.md")]

/-- Witness for C8: against a map with keys `a` and `b`, loading the
missing key produces a not-found message containing both keys. -/
theorem c8_not_found_error_lists_all_keys_witness :
    ∃ msg, loadAgent [] (str "/r") amapAB (str "missing-name") = .error (.notFound msg) ∧
      ∀ k ∈ mapKeys amapAB, k <:+: msg :=
  (c8_not_found_error_lists_all_keys [] (str "/r") amapAB [] [] (str "missing-name")
    (str "x") (str "x")).1 (by decide)

/-! Claim C5 -/

/-- C5: on any input with neither a structured frontmatter block nor an
inline metadata comment (no match for either extraction regex),
`extractMetadata` returns — it is a total function — a result tagged with
the derived-paragraph source whose content is non-empty, the literal
placeholder being substituted exactly when the derived paragraph is
empty. -/
theorem c5_fallback_total_nonempty (s : Str)
    (hy : yamlMatch s = none) (hh : htmlMatch s = none) :
    (extractMetadata s).source = .paragraph ∧
    (extractMetadata s).content ≠ [] ∧
    (derivedParagraph s = [] → (extractMetadata s).content = noDescriptionAvailable) := by
  unfold extractMetadata
  rw [hy, hh]
  refine ⟨rfl, ?_, ?_⟩
  · dsimp only
    split
    · decide
    next hne => simpa [List.isEmpty_iff] using hne
  · intro hd
    dsimp only
    simp [hd, List.isEmpty_iff]

/-- Witness for C5 at the empty document: the placeholder is produced. -/
theorem c5_fallback_total_nonempty_witness :
    yamlMatch (str "") = none ∧ htmlMatch (str "") = none ∧
    ((extractMetadata (str "")).source = .paragraph ∧
     (extractMetadata (str "")).content ≠ [] ∧
     (derivedParagraph (str "") = [] →
       (extractMetadata (str "")).content = noDescriptionAvailable)) :=
  ⟨by decide, by decide, c5_fallback_total_nonempty (str "") (by decide) (by decide)⟩

/-! Claim C6 -/

def scenarioATree : Dir :=
  .consDir (str "agents")
    (.consFile (str "planner.md") (str "---\ndescription: x\n---\n# Planner") .nil)
    .nil

/-- C6: scenario A — root `/r` with the single file `/r/agents/planner.md`
whose text is a frontmatter block `description: x` followed by a heading;
the flat agent scan returns the one-entry map keyed `planner` with the raw
inner frontmatter text as description and the structured (`yaml`) source
tag. -/
theorem c6_flat_scan_scenario_a :
    scanAgentsWithMetadata (str "/r") scenarioATree =
      [(str "planner",
        { name := str "planner", path := str "/r/agents/planner.md",
          description := str "description: x", metadataSource := .yaml })] := by
  decide

/-! Claim C7 -/

def firstSegment (k : Str) : Str := k.takeWhile (fun ch => ch ≠ '/')

theorem splitOnChar_head (k : Str) :
    ∃ t, splitOnChar '/' k = firstSegment k :: t ∧ (t = [] ↔ '/' ∉ k) := by
  induction k with
  | nil => exact ⟨[], by simp [splitOnChar, firstSegment], by simp⟩
  | cons x xs ih =>
    obtain ⟨t, ht, hiff⟩ := ih
    by_cases hx : x = '/'
    · subst hx
      refine ⟨firstSegment xs :: t, ?_, ?_⟩
      · unfold splitOnChar
        rw [ht]
        simp [firstSegment]
      · constructor
        · intro h; exact absurd h (by simp)
        · intro h; exact absurd (List.mem_cons_self '/' xs) h
    · refine ⟨t, ?_, ?_⟩
      · unfold splitOnChar
        rw [ht]
        simp [hx, firstSegment, List.takeWhile_cons, if_pos]
      · rw [hiff]
        simp only [List.mem_cons, not_or]
        constructor
        · intro h; exact ⟨fun he => hx he.symm, h⟩
        · intro h; exact h.2

theorem categoryOfKey_eq (k : Str) :
    categoryOfKey k = if '/' ∈ k then firstSegment k else str "general" := by
  obtain ⟨t, ht, hiff⟩ := splitOnChar_head k
  unfold categoryOfKey
  rw [ht]
  cases t with
  | nil =>
    have hnot : '/' ∉ k := hiff.mp rfl
    simp [hnot]
  | cons a t' =>
    have hmem : '/' ∈ k := by
      by_contra h
      exact absurd (hiff.mpr h) (by simp)
    simp [hmem]

theorem mapSet_mem {α : Type} (m : List (Str × α)) (k : Str) (v : α)
    (e : Str × α) (he : e ∈ mapSet m k v) : e = (k, v) ∨ e ∈ m := by
  induction m with
  | nil => simpa [mapSet] using he
  | cons p rest ih =>
    obtain ⟨k', v'⟩ := p
    unfold mapSet at he
    by_cases hk : k' = k
    · rw [if_pos hk] at he
      cases he with
      | head => exact Or.inl rfl
      | tail _ hmem => exact Or.inr (List.mem_cons_of_mem _ hmem)
    · rw [if_neg hk] at he
      cases he with
      | head => exact Or.inr (List.mem_cons_self _ _)
      | tail _ hmem =>
        cases ih hmem with
        | inl h => exact Or.inl h
        | inr h => exact Or.inr (List.mem_cons_of_mem _ h)

/-- Every entry the guideline walk produces carries the category computed
from its own map key. -/
def guidelineCategoryOk (e : Str × GuidelineMetadata) : Prop :=
  e.2.category = categoryOfKey e.1

theorem scanGuidelinesDir_category (basePath : Str) (d : Dir) :
    ∀ fp acc, (∀ e ∈ acc, guidelineCategoryOk e) →
      ∀ e ∈ scanGuidelinesDir basePath fp d acc, guidelineCategoryOk e := by
  induction d with
  | nil => intro fp acc hacc e he; exact hacc e (by simpa [scanGuidelinesDir] using he)
  | consFile n c rest ih =>
    intro fp acc hacc e he
    rw [scanGuidelinesDir] at he
    refine ih fp _ ?_ e he
    intro e' he'
    by_cases hmd : endsWithMd n
    · rw [if_pos hmd] at he'
      cases mapSet_mem _ _ _ _ he' with
      | inl h => rw [h]; rfl
      | inr h => exact hacc e' h
    · rw [if_neg hmd] at he'
      exact hacc e' he'
  | consDir n sub rest ih_sub ih_rest =>
    intro fp acc hacc e he
    rw [scanGuidelinesDir] at he
    exact ih_rest fp _ (ih_sub (pathJoin fp n) acc hacc) e he

def scenarioBTree : Dir :=
  .consDir (str "guidelines")
    (.consDir (str "dev")
      (.consFile (str "api.md") (str "Use REST.\n\nDetails.") .nil)
      .nil)
    .nil

/-- C7: scenario B — root `/r` with the single file
`/r/guidelines/dev/api.md` carrying no metadata markers and first
paragraph `Use REST.`: the categorized scan returns key `dev/api`,
category `dev`, description `Use REST.` and the derived (`paragraph`)
source tag; and in general every scanned guideline entry's category is the
first path segment of its key when the key is nested and the fixed default
`general` otherwise. -/
theorem c7_categorized_scan_category :
    scanGuidelinesWithMetadata (str "/r") scenarioBTree =
      [(str "dev/api",
        { name := str "dev/api", path := str "/r/guidelines/dev/api.md",
          category := str "dev", description := str "Use REST.",
          metadataSource := .paragraph })] ∧
    (∀ (rootPath : Str) (tree : Dir) (k : Str) (m : GuidelineMetadata),
      (k, m) ∈ scanGuidelinesWithMetadata rootPath tree →
      m.category = if '/' ∈ k then firstSegment k else str "general") := by
  constructor
  · decide
  · intro rootPath tree k m hmem
    rw [← categoryOfKey_eq]
    unfold scanGuidelinesWithMetadata at hmem
    revert hmem
    cases findSubDir tree (str "guidelines") with
    | none => intro hmem; cases hmem
    | some d =>
      intro hmem
      exact scanGuidelinesDir_category _ d _ [] (fun e he => absurd he (by simp)) (k, m) hmem

/-- Witness for C7's general clause at the scenario B entry. -/
theorem c7_categorized_scan_category_witness :
    ({ name := str "dev/api", path := str "/r/guidelines/dev/api.md",
       category := str "dev", description := str "Use REST.",
       metadataSource := .paragraph } : GuidelineMetadata).category =
      if '/' ∈ str "dev/api" then firstSegment (str "dev/api") else str "general" :=
  c7_categorized_scan_category.2 (str "/r") scenarioBTree (str "dev/api") _ (by decide)

/-! Claim C10 -/

/-- C10: any resource the agent scan recorded whose loader-side relative
path contains two consecutive dots — for instance a single filename such
as `a..b.md`, which the scan inserts without complaint — can never be
loaded: the lexical denylist matches `..` as a raw substring, not as a
path segment, so every load of that key fails with the dangerous-pattern
security error. -/
theorem c10_dotdot_resource_never_loads
    (fs : FS) (rootPath : Str) (tree : Dir) (k : Str) (m : AgentMetadata)
    (hlook : mapLookup (scanAgentsWithMetadata rootPath tree) k = some m)
    (hdot : hasSubstr (str "..") (relativizePath rootPath m.path) = true) :
    loadAgent fs rootPath (scanAgentsWithMetadata rootPath tree) k
      = .error (.security .dangerousPatterns) := by
  have hdang : containsDangerousPatterns (relativizePath rootPath m.path) = true := by
    unfold containsDangerousPatterns
    rw [hdot]
    rfl
  unfold loadAgent
  rw [hlook]
  dsimp only
  unfold safeReadFile validatePath
  simp only [hdang, if_true]

def dotdotAgentTree : Dir :=
  .consDir (str "agents") (.consFile (str "a..b.md") (str "hi") .nil) .nil

def dotdotAgentMd : AgentMetadata :=
  { name := str "a..b", path := str "/r/agents/a..b.md",
    description := str "hi", metadataSource := .paragraph }

/-- Witness for C10: the file `a..b.md` is scanned into the map under key
`a..b`, yet loading that key yields the security error. -/
theorem c10_dotdot_resource_never_loads_witness :
    mapLookup (scanAgentsWithMetadata (str "/r") dotdotAgentTree) (str "a..b")
      = some dotdotAgentMd ∧
    loadAgent (fsOfTree (str "/r") dotdotAgentTree) (str "/r")
      (scanAgentsWithMetadata (str "/r") dotdotAgentTree) (str "a..b")
      = .error (.security .dangerousPatterns) :=
  ⟨by decide,
   c10_dotdot_resource_never_loads (fsOfTree (str "/r") dotdotAgentTree) (str "/r")
     dotdotAgentTree (str "a..b") dotdotAgentMd (by decide) (by decide)⟩


/-! Claim C4 -/

theorem findSubstrIdx_at_first_occurrence (pat inner rest : Str) (hne : pat ≠ [])
    (hfree : ¬ pat <:+: (inner ++ pat.dropLast)) :
    findSubstrIdx pat (inner ++ pat ++ rest) = some inner.length := by
  induction inner with
  | nil =>
    obtain ⟨p, pt, rfl⟩ : ∃ p pt, pat = p :: pt := by
      cases pat with
      | nil => exact absurd rfl hne
      | cons p pt => exact ⟨p, pt, rfl⟩
    show findSubstrIdx (p :: pt) (p :: (pt ++ rest)) = some 0
    have hpos : (p :: pt).isPrefixOf (p :: (pt ++ rest)) = true := by
      rw [← List.cons_append]
      exact List.isPrefixOf_iff_prefix.mpr (List.prefix_append _ _)
    unfold findSubstrIdx
    rw [if_pos hpos]
  | cons c inner' ih =>
    have hfree' : ¬ pat <:+: (inner' ++ pat.dropLast) := fun h =>
      hfree (h.trans (List.suffix_cons c _).isInfix)
    have hagree :
        (((c :: inner') ++ pat) ++ rest).take pat.length
          = ((c :: inner') ++ pat.dropLast).take pat.length := by
      have h1 : pat.length - ((c :: inner') ++ pat).length = 0 := by
        simp only [List.length_append, List.length_cons]
        omega
      rw [@List.take_append_eq_append_take _ ((c :: inner') ++ pat) rest _, h1,
        List.take_zero, List.append_nil,
        @List.take_append_eq_append_take _ (c :: inner') pat _,
        @List.take_append_eq_append_take _ (c :: inner') pat.dropLast _]
      congr 1
      rw [List.dropLast_eq_take, List.take_take]
      have hone : 1 ≤ pat.length := by
        cases pat with
        | nil => exact absurd rfl hne
        | cons q qt => simp
      have hm : min (pat.length - (c :: inner').length) (pat.length - 1)
          = pat.length - (c :: inner').length := by
        simp only [List.length_cons]
        omega
      rw [hm]
    have hnp : ¬ pat.isPrefixOf (((c :: inner') ++ pat) ++ rest) = true := by
      intro hp
      apply hfree
      refine List.IsPrefix.isInfix (List.prefix_iff_eq_take.mpr ?_)
      rw [← hagree]
      exact List.prefix_iff_eq_take.mp (List.isPrefixOf_iff_prefix.mp hp)
    have hstep : ((c :: inner') ++ pat) ++ rest = c :: ((inner' ++ pat) ++ rest) := by
      simp
    rw [show (c :: inner') ++ pat ++ rest = ((c :: inner') ++ pat) ++ rest from rfl, hstep]
    rw [hstep] at hnp
    unfold findSubstrIdx
    rw [if_neg hnp, ih hfree']
    rfl

theorem jsTrim_infix_self (s : Str) : jsTrim s <:+: s := by
  unfold jsTrim
  have h1 : s.dropWhile isWS <:+ s := List.dropWhile_suffix _
  have h2 : ((s.dropWhile isWS).reverse.dropWhile isWS).reverse <+: s.dropWhile isWS := by
    have := List.reverse_prefix.mpr (@List.dropWhile_suffix _ (s.dropWhile isWS).reverse isWS)
    rwa [List.reverse_reverse] at this
  exact h2.isInfix.trans h1.isInfix

def nestedCommentDoc : Str := str "---\n<!-- metadata\nfoo\n-->\n---\nx"

/-- C4 counterexample: a document whose frontmatter block encloses the
inline-comment block contains both markers, yet the structured extraction
returns the full inline-comment block inside its content, refuting the
claim that the returned content contains no fragment of the inline
block. -/
theorem c4_counterexample :
    (str "---\n").isPrefixOf nestedCommentDoc = true ∧
    hasSubstr (str "<!-- metadata\n") nestedCommentDoc = true ∧
    hasSubstr (str "-->") nestedCommentDoc = true ∧
    (extractMetadata nestedCommentDoc).source = .yaml ∧
    hasSubstr (str "<!-- metadata\nfoo\n-->") (extractMetadata nestedCommentDoc).content = true := by
  refine ⟨by decide, by decide, by decide, by decide, by decide⟩

/-- C4 amended: when the document opens with a frontmatter block whose
inner text contains neither the closing delimiter (not even overlapping
its own boundary) nor a comment opener — so the inline-comment block lies
after the frontmatter — the extraction returns exactly the trimmed inner
frontmatter text tagged structured, and the returned content contains no
fragment of the inline-comment block. -/
theorem c4_structured_precedence (inner u v w : Str)
    (hnoclose : ¬ (str "\n---") <:+: (inner ++ str "\n--"))
    (hnocomment : ¬ (str "<!--") <:+: inner) :
    extractMetadata (str "---\n" ++ ((inner ++ str "\n---") ++
        (u ++ str "<!-- metadata\n" ++ v ++ str "-->" ++ w)))
      = { content := jsTrim inner, source := .yaml } ∧
    ¬ (str "<!--") <:+:
      (extractMetadata (str "---\n" ++ ((inner ++ str "\n---") ++
        (u ++ str "<!-- metadata\n" ++ v ++ str "-->" ++ w)))).content := by
  set R := u ++ str "<!-- metadata\n" ++ v ++ str "-->" ++ w with hR
  have hyaml : yamlMatch (str "---\n" ++ ((inner ++ str "\n---") ++ R)) = some inner := by
    unfold yamlMatch
    rw [if_pos (List.isPrefixOf_iff_prefix.mpr (List.prefix_append _ _))]
    have h4 : (str "---\n").length = 4 := rfl
    have hdrop : (str "---\n" ++ ((inner ++ str "\n---") ++ R)).drop 4
        = (inner ++ str "\n---") ++ R := by
      rw [← h4]
      exact List.drop_left _ _
    have hidx : findSubstrIdx (str "\n---") ((inner ++ str "\n---") ++ R)
        = some inner.length :=
      findSubstrIdx_at_first_occurrence (str "\n---") inner R (by decide)
        (by rw [show (str "\n---").dropLast = str "\n--" from rfl]; exact hnoclose)
    rw [hdrop]
    dsimp only
    rw [hidx]
    rw [Option.map_some', List.append_assoc, List.take_left]
  constructor
  · unfold extractMetadata
    rw [hyaml]
  · unfold extractMetadata
    rw [hyaml]
    intro hcon
    exact hnocomment (hcon.trans (jsTrim_infix_self inner))

/-- Witness for C4 amended at a concrete well-formed document. -/
theorem c4_structured_precedence_witness :
    extractMetadata (str "---\n" ++ ((str "description: x" ++ str "\n---") ++
        (str "\n" ++ str "<!-- metadata\n" ++ str "note\n" ++ str "-->" ++ str "\n")))
      = { content := jsTrim (str "description: x"), source := .yaml } ∧
    ¬ (str "<!--") <:+:
      (extractMetadata (str "---\n" ++ ((str "description: x" ++ str "\n---") ++
        (str "\n" ++ str "<!-- metadata\n" ++ str "note\n" ++ str "-->" ++ str "\n")))).content :=
  c4_structured_precedence (str "description: x") (str "\n") (str "note\n") (str "\n")
    (by decide) (by decide)

/-! C9 machinery -/

def goodSeg (s : Str) : Bool :=
  decide (s ≠ [] ∧ '/' ∉ s ∧ s ≠ str "." ∧ s ≠ str "..")

def wfDir : Dir → Bool
  | .nil => true
  | .consFile n _ rest => goodSeg n && wfDir rest
  | .consDir n sub rest => goodSeg n && wfDir sub && wfDir rest

def absOfSegs (segs : List Str) : Str := '/' :: List.intercalate (str "/") segs

def underPath (fp : Str) (segs : List Str) : Str :=
  fp ++ '/' :: List.intercalate (str "/") segs

theorem splitOnChar_ne_nil (c : Char) (s : Str) : splitOnChar c s ≠ [] := by
  cases s with
  | nil => simp [splitOnChar]
  | cons x xs =>
    unfold splitOnChar
    cases hs : splitOnChar c xs with
    | nil => simp
    | cons h t => by_cases hx : x = c <;> simp [hx]

theorem splitOnChar_cons_sep (c : Char) (x : Str) :
    splitOnChar c (c :: x) = [] :: splitOnChar c x := by
  rw [splitOnChar]
  cases hs : splitOnChar c x with
  | nil => exact absurd hs (splitOnChar_ne_nil c x)
  | cons h t => simp

theorem splitOnChar_no_sep (c : Char) (s : Str) (h : c ∉ s) : splitOnChar c s = [s] := by
  induction s with
  | nil => rfl
  | cons x xs ih =>
    unfold splitOnChar
    rw [ih fun hm => h (List.mem_cons_of_mem _ hm)]
    have hx : ¬ x = c := fun he => h (he ▸ List.mem_cons_self x xs)
    simp [hx]

theorem splitOnChar_append_sep (c : Char) (a x : Str) (h : c ∉ a) :
    splitOnChar c (a ++ c :: x) = a :: splitOnChar c x := by
  induction a with
  | nil => simpa using splitOnChar_cons_sep c x
  | cons y ys ih =>
    have hy : ¬ y = c := fun he => h (he ▸ List.mem_cons_self y ys)
    have ih' := ih fun hm => h (List.mem_cons_of_mem _ hm)
    show splitOnChar c (y :: (ys ++ c :: x)) = (y :: ys) :: splitOnChar c x
    rw [splitOnChar, ih']
    simp [hy]

theorem splitOnChar_intercalate (L : List Str) (hL : L ≠ [])
    (hgood : ∀ s ∈ L, '/' ∉ s) :
    splitOnChar '/' (List.intercalate (str "/") L) = L := by
  induction L with
  | nil => exact absurd rfl hL
  | cons a t ih =>
    cases t with
    | nil =>
      have : List.intercalate (str "/") [a] = a := by
        simp [List.intercalate, List.intersperse]
      rw [this, splitOnChar_no_sep '/' a (hgood a (List.mem_cons_self a []))]
    | cons b t' =>
      rw [intercalate_cons_of_ne_nil _ a _ (by simp)]
      have harr : a ++ str "/" ++ List.intercalate (str "/") (b :: t')
          = a ++ '/' :: List.intercalate (str "/") (b :: t') := by
        rw [List.append_assoc]
        rfl
      rw [harr, splitOnChar_append_sep '/' a _ (hgood a (List.mem_cons_self a _)),
        ih (by simp) fun s hs => hgood s (List.mem_cons_of_mem _ hs)]

theorem foldl_normStep_good (L : List Str) (h : ∀ s ∈ L, goodSeg s = true) :
    ∀ acc, L.foldl normStep acc = acc ++ L := by
  induction L with
  | nil => intro acc; simp
  | cons a t ih =>
    intro acc
    have ha := of_decide_eq_true (h a (List.mem_cons_self a t))
    obtain ⟨h1, _, h3, h4⟩ := ha
    rw [List.foldl_cons]
    have hstep : normStep acc a = acc ++ [a] := by
      unfold normStep
      rw [if_neg h1, if_neg h3, if_neg h4]
    rw [hstep, ih (fun s hs => h s (List.mem_cons_of_mem _ hs))]
    simp

theorem normalizeAbs_fix (L : List Str) (h : ∀ s ∈ L, goodSeg s = true) :
    normalizeAbs (absOfSegs L) = absOfSegs L := by
  cases L with
  | nil => decide
  | cons a t =>
    unfold normalizeAbs absOfSegs
    rw [splitOnChar_cons_sep,
      splitOnChar_intercalate (a :: t) (by simp)
        (fun s hs => (of_decide_eq_true (h s hs)).2.1)]
    unfold normSegs
    rw [List.foldl_cons]
    have h0 : normStep [] [] = [] := rfl
    rw [h0, foldl_normStep_good (a :: t) h []]
    rfl

theorem intercalate_append_ne_nil (sep : Str) (L1 L2 : List Str)
    (h1 : L1 ≠ []) (h2 : L2 ≠ []) :
    List.intercalate sep (L1 ++ L2)
      = List.intercalate sep L1 ++ sep ++ List.intercalate sep L2 := by
  induction L1 with
  | nil => exact absurd rfl h1
  | cons a t ih =>
    cases t with
    | nil =>
      show List.intercalate sep (a :: L2) = List.intercalate sep [a] ++ sep ++ _
      rw [intercalate_cons_of_ne_nil sep a L2 h2]
      have : List.intercalate sep [a] = a := by simp [List.intercalate, List.intersperse]
      rw [this]
    | cons b t' =>
      show List.intercalate sep (a :: ((b :: t') ++ L2)) = _
      rw [intercalate_cons_of_ne_nil sep a _ (by simp),
        intercalate_cons_of_ne_nil sep a (b :: t') (by simp), ih (by simp)]
      simp [List.append_assoc]

theorem underPath_singleton (fp n : Str) : underPath fp [n] = pathJoin fp n := by
  unfold underPath pathJoin
  have : List.intercalate (str "/") [n] = n := by simp [List.intercalate, List.intersperse]
  rw [this]

theorem underPath_cons (fp n : Str) (segs : List Str) (h : segs ≠ []) :
    underPath (pathJoin fp n) segs = underPath fp (n :: segs) := by
  unfold underPath pathJoin
  rw [intercalate_cons_of_ne_nil _ n segs h]
  simp [List.append_assoc]
  rfl

theorem absOfSegs_append (L1 L2 : List Str) (h1 : L1 ≠ []) (h2 : L2 ≠ []) :
    absOfSegs L1 ++ '/' :: List.intercalate (str "/") L2 = absOfSegs (L1 ++ L2) := by
  unfold absOfSegs
  rw [intercalate_append_ne_nil _ L1 L2 h1 h2]
  simp [List.append_assoc]
  rfl

theorem mapLookup_mem {α : Type} (l : List (Str × α)) (k : Str) (v : α)
    (h : mapLookup l k = some v) : (k, v) ∈ l := by
  induction l with
  | nil => cases h
  | cons p rest ih =>
    obtain ⟨k', v'⟩ := p
    unfold mapLookup at h
    by_cases hk : k' = k
    · rw [if_pos hk] at h
      injection h with h
      subst hk
      subst h
      exact List.mem_cons_self _ _
    · rw [if_neg hk] at h
      exact List.mem_cons_of_mem _ (ih h)

theorem mapLookup_of_mem_nodup {α : Type} (l : List (Str × α)) (k : Str) (v : α)
    (hmem : (k, v) ∈ l) (hnd : (l.map Prod.fst).Nodup) : mapLookup l k = some v := by
  induction l with
  | nil => cases hmem
  | cons p rest ih =>
    obtain ⟨k', v'⟩ := p
    rw [List.map_cons, List.nodup_cons] at hnd
    cases hmem with
    | head =>
      unfold mapLookup
      rw [if_pos rfl]
    | tail _ hm =>
      unfold mapLookup
      by_cases hk : k' = k
      · subst hk
        exact absurd (List.mem_map_of_mem Prod.fst hm) hnd.1
      · rw [if_neg hk]
        exact ih hm hnd.2

theorem findSubDir_flatten (root : Str) (tree : Dir) (name : Str) (sub : Dir)
    (h : findSubDir tree name = some sub) :
    ∀ e ∈ flatten (pathJoin root name) sub, e ∈ flatten root tree := by
  induction tree with
  | nil => cases h
  | consFile n c rest ih =>
    unfold findSubDir at h
    by_cases hn : n = name
    · rw [if_pos hn] at h; cases h
    · rw [if_neg hn] at h
      intro e he
      rw [flatten]
      exact List.mem_cons_of_mem _ (ih h e he)
  | consDir n s rest ih_sub ih_rest =>
    unfold findSubDir at h
    by_cases hn : n = name
    · rw [if_pos hn] at h
      injection h with h
      intro e he
      rw [flatten]
      subst hn
      subst h
      exact List.mem_cons_of_mem _ (List.mem_append_left _ he)
    · rw [if_neg hn] at h
      intro e he
      rw [flatten]
      exact List.mem_cons_of_mem _ (List.mem_append_right _ (ih_rest h e he))

theorem findSubDir_wf (tree : Dir) (name : Str) (sub : Dir)
    (hwf : wfDir tree = true) (h : findSubDir tree name = some sub) :
    wfDir sub = true := by
  induction tree with
  | nil => cases h
  | consFile n c rest ih =>
    unfold findSubDir at h
    rw [wfDir, Bool.and_eq_true] at hwf
    by_cases hn : n = name
    · rw [if_pos hn] at h; cases h
    · rw [if_neg hn] at h; exact ih hwf.2 h
  | consDir n s rest ih_sub ih_rest =>
    unfold findSubDir at h
    rw [wfDir, Bool.and_eq_true, Bool.and_eq_true] at hwf
    by_cases hn : n = name
    · rw [if_pos hn] at h
      injection h with h
      rw [← h]
      exact hwf.1.2
    · rw [if_neg hn] at h
      exact ih_rest hwf.2 h

theorem scanGuidelinesDir_shape (basePath : Str) (d : Dir) :
    ∀ fp acc k m, wfDir d = true →
      (k, m) ∈ scanGuidelinesDir basePath fp d acc →
      (k, m) ∈ acc ∨
      ∃ segs c, segs ≠ [] ∧ (∀ s ∈ segs, goodSeg s = true) ∧
        m.path = underPath fp segs ∧ (m.path, FNode.file c) ∈ flatten fp d := by
  induction d with
  | nil =>
    intro fp acc k m _ hm
    exact Or.inl (by simpa [scanGuidelinesDir] using hm)
  | consFile n c rest ih =>
    intro fp acc k m hwf hm
    rw [scanGuidelinesDir] at hm
    rw [wfDir, Bool.and_eq_true] at hwf
    cases ih fp _ k m hwf.2 hm with
    | inr h =>
      obtain ⟨segs, c', hne, hgood, hpath, hmem⟩ := h
      exact Or.inr ⟨segs, c', hne, hgood, hpath,
        by rw [flatten]; exact List.mem_cons_of_mem _ hmem⟩
    | inl h =>
      by_cases hmd : endsWithMd n
      · rw [if_pos hmd] at h
        cases mapSet_mem _ _ _ _ h with
        | inl he =>
          rw [Prod.mk.injEq] at he
          obtain ⟨-, hmEq⟩ := he
          refine Or.inr ⟨[n], c, by simp, ?_, ?_, ?_⟩
          · intro s hs
            rw [List.mem_singleton] at hs
            rw [hs]
            exact hwf.1
          · rw [hmEq, underPath_singleton]
          · rw [hmEq, flatten]
            exact List.mem_cons_self _ _
        | inr hacc => exact Or.inl hacc
      · rw [if_neg hmd] at h
        exact Or.inl h
  | consDir n sub rest ih_sub ih_rest =>
    intro fp acc k m hwf hm
    rw [scanGuidelinesDir] at hm
    rw [wfDir, Bool.and_eq_true, Bool.and_eq_true] at hwf
    cases ih_rest fp _ k m hwf.2 hm with
    | inr h =>
      obtain ⟨segs, c', hne, hgood, hpath, hmem⟩ := h
      exact Or.inr ⟨segs, c', hne, hgood, hpath,
        by rw [flatten]; exact List.mem_cons_of_mem _ (List.mem_append_right _ hmem)⟩
    | inl h =>
      cases ih_sub (pathJoin fp n) acc k m hwf.1.2 h with
      | inl h2 => exact Or.inl h2
      | inr h2 =>
        obtain ⟨segs, c', hne, hgood, hpath, hmem⟩ := h2
        refine Or.inr ⟨n :: segs, c', by simp, ?_, ?_, ?_⟩
        · intro s hs
          cases hs with
          | head => exact hwf.1.1
          | tail _ hs' => exact hgood s hs'
        · rw [hpath, underPath_cons fp n segs hne]
        · rw [flatten]
          exact List.mem_cons_of_mem _ (List.mem_append_left _ hmem)

theorem scanGuidelines_shape (rootPath : Str) (tree : Dir) (k : Str) (m : GuidelineMetadata)
    (hwf : wfDir tree = true)
    (hm : (k, m) ∈ scanGuidelinesWithMetadata rootPath tree) :
    ∃ segs c, segs ≠ [] ∧ (∀ s ∈ segs, goodSeg s = true) ∧
      m.path = underPath rootPath (str "guidelines" :: segs) ∧
      (m.path, FNode.file c) ∈ fsOfTree rootPath tree := by
  unfold scanGuidelinesWithMetadata at hm
  revert hm
  cases hfind : findSubDir tree (str "guidelines") with
  | none => intro hm; cases hm
  | some d =>
    intro hm
    have hwfd := findSubDir_wf tree _ d hwf hfind
    cases scanGuidelinesDir_shape (pathJoin rootPath (str "guidelines")) d
        (pathJoin rootPath (str "guidelines")) [] k m hwfd hm with
    | inl h => cases h
    | inr h =>
      obtain ⟨segs, c, hne, hgood, hpath, hmem⟩ := h
      refine ⟨segs, c, hne, hgood, ?_, ?_⟩
      · rw [hpath, underPath_cons _ _ _ hne]
      · exact List.mem_cons_of_mem _
          (findSubDir_flatten rootPath tree _ d hfind (m.path, .file c) hmem)

/-- C9 amended: for every resource in a scanned guideline map whose
root-relative path and absolute path both pass the lexical denylist (in
particular contain no two consecutive dots), loading that resource by its
key re-reads the backing file through the Security Boundary and returns
its current content byte-for-byte.  The root is any well-formed absolute
directory below the filesystem root; the tree is well formed (readdir
names are non-empty, slash-free and not dot or dot-dot) and the induced
filesystem has no duplicate paths. -/
theorem c9_roundtrip_on_safe_paths (rs : List Str) (tree : Dir) (k : Str)
    (m : GuidelineMetadata)
    (hrs : ∀ s ∈ rs, goodSeg s = true) (hrsne : rs ≠ [])
    (hwf : wfDir tree = true)
    (hnd : ((fsOfTree (absOfSegs rs) tree).map Prod.fst).Nodup)
    (hlook : mapLookup (scanGuidelinesWithMetadata (absOfSegs rs) tree) k = some m)
    (hsafeRel : containsDangerousPatterns
      (relativizePath (absOfSegs rs) m.path) = false)
    (hsafeAbs : containsDangerousPatterns m.path = false) :
    ∃ c, fsLookup (fsOfTree (absOfSegs rs) tree) m.path = some (.file c) ∧
      loadGuideline (fsOfTree (absOfSegs rs) tree) (absOfSegs rs)
        (scanGuidelinesWithMetadata (absOfSegs rs) tree) k = .ok c := by
  set root := absOfSegs rs with hroot
  set fs := fsOfTree root tree with hfs
  have hmem := mapLookup_mem _ _ _ hlook
  obtain ⟨segs, c, hne, hgood, hpath, hfsmem⟩ := scanGuidelines_shape root tree k m hwf hmem
  have hflk : fsLookup fs m.path = some (.file c) := by
    unfold fsLookup
    exact mapLookup_of_mem_nodup _ _ _ hfsmem hnd
  set rel := List.intercalate (str "/") (str "guidelines" :: segs) with hrel
  have hpath' : m.path = root ++ '/' :: rel := hpath
  have hgoodfull : ∀ s ∈ rs ++ str "guidelines" :: segs, goodSeg s = true := by
    intro s hs
    rcases List.mem_append.mp hs with h | h
    · exact hrs s h
    · cases h with
      | head => decide
      | tail _ h' => exact hgood s h'
  have hfull : m.path = absOfSegs (rs ++ str "guidelines" :: segs) := by
    rw [hpath', hroot, absOfSegs_append rs _ hrsne (by simp)]
  have hna : normalizeAbs m.path = m.path := by
    rw [hfull]
    exact normalizeAbs_fix _ hgoodfull
  have habs1 : isAbsolutePath m.path = true := by
    rw [hfull]
    rfl
  have hpre2 : root.isPrefixOf m.path = true := by
    rw [hpath']
    exact List.isPrefixOf_iff_prefix.mpr (List.prefix_append _ _)
  have hrelEq : relativizePath root m.path = rel := by
    unfold relativizePath
    rw [if_pos hpre2, hpath', List.append_cons]
    have hlen : (root ++ ['/']).length = root.length + 1 := by simp
    rw [← hlen, List.drop_left]
  have hrelC : containsDangerousPatterns rel = false := by
    rw [← hrelEq]
    exact hsafeRel
  have hrelnabs : isAbsolutePath rel = false := by
    rw [hrel, intercalate_cons_of_ne_nil _ _ _ hne]
    rfl
  have hresolve : pathResolve root rel = m.path := by
    unfold pathResolve
    rw [hrelnabs]
    rw [if_neg (by simp)]
    rw [← hpath']
    exact hna
  have hval_rel : validatePath fs root rel = .ok m.path := by
    unfold validatePath
    rw [hrelC, if_neg (by simp)]
    dsimp only
    unfold pathNormalize
    rw [hresolve, hna, if_pos hpre2]
    unfold realpathSync
    rw [hflk]
    dsimp only
    rw [if_pos hpre2]
  have hval_abs : validatePath fs root m.path = .ok m.path := by
    unfold validatePath
    rw [hsafeAbs, if_neg (by simp)]
    dsimp only
    unfold pathResolve pathNormalize
    rw [habs1, if_pos rfl, hna, hna, if_pos hpre2]
    unfold realpathSync
    rw [hflk]
    dsimp only
    rw [if_pos hpre2]
  have hreadable : isFileReadable fs root m.path = true := by
    unfold isFileReadable
    rw [hval_abs]
    dsimp only
    unfold statIsFile
    rw [hflk]
  have hsafeRead : safeReadFile fs root rel = .ok c := by
    unfold safeReadFile
    rw [hval_rel]
    dsimp only
    rw [if_pos hreadable]
    unfold readFileSync
    rw [hflk]
  refine ⟨c, hflk, ?_⟩
  unfold loadGuideline
  rw [hlook]
  dsimp only
  rw [hrelEq, hsafeRead]

def dotdotGuidelineTree : Dir :=
  .consDir (str "guidelines") (.consFile (str "a..b.md") (str "hi") .nil) .nil

def dotdotGuidelineMd : GuidelineMetadata :=
  { name := str "a..b", path := str "/r/guidelines/a..b.md", category := str "general",
    description := str "hi", metadataSource := .paragraph }

/-- C9 counterexample: the guideline file `a..b.md` is present in the
scanned map and exists unchanged on disk with content `hi`, yet loading it
by its key yields the dangerous-pattern security error instead of the file
content, because the loader-side lexical denylist matches the two dots
inside the filename. -/
theorem c9_counterexample :
    mapLookup (scanGuidelinesWithMetadata (str "/r") dotdotGuidelineTree) (str "a..b")
      = some dotdotGuidelineMd ∧
    fsLookup (fsOfTree (str "/r") dotdotGuidelineTree) dotdotGuidelineMd.path
      = some (.file (str "hi")) ∧
    loadGuideline (fsOfTree (str "/r") dotdotGuidelineTree) (str "/r")
      (scanGuidelinesWithMetadata (str "/r") dotdotGuidelineTree) (str "a..b")
      = .error (.security .dangerousPatterns) := by
  refine ⟨by decide, by decide, by decide⟩

def roundtripTree : Dir :=
  .consDir (str "guidelines") (.consFile (str "api.md") (str "hello world") .nil) .nil

def roundtripMd : GuidelineMetadata :=
  { name := str "api", path := str "/r/guidelines/api.md", category := str "general",
    description := str "hello world", metadataSource := .paragraph }

/-- Witness for C9 amended at a concrete one-file tree. -/
theorem c9_roundtrip_on_safe_paths_witness :
    ∃ c, fsLookup (fsOfTree (absOfSegs [str "r"]) roundtripTree) roundtripMd.path
        = some (.file c) ∧
      loadGuideline (fsOfTree (absOfSegs [str "r"]) roundtripTree) (absOfSegs [str "r"])
        (scanGuidelinesWithMetadata (absOfSegs [str "r"]) roundtripTree) (str "api")
        = .ok c :=
  c9_roundtrip_on_safe_paths [str "r"] roundtripTree (str "api") roundtripMd
    (by decide) (by decide) (by decide) (by decide) (by decide) (by decide) (by decide)
